import Mathlib

/-!
Verification of the spatial-data transformation pipeline described by this
repository's specification.  The notebooks delegate every substantive
operation (CRS resolution, reprojection, overlay, dissolve, simplification)
to external libraries whose code is not part of the repository, so the
pipeline components below are modelled from the specification text and from
the behaviour documented in the notebook cells, and the stated properties
are proved against those models.
-/

/-- Modelled from the spec: the four typed error kinds of the error-handling
design (`UnresolvedCRS`, `CRSMismatch`, `UnsupportedTransform`,
`InvalidGeometry`); no implementation of them exists in the repository. -/
inductive GisError where
  | UnresolvedCRS
  | CRSMismatch
  | UnsupportedTransform
  | InvalidGeometry
deriving DecidableEq

/-- Modelled from the spec: a CRS descriptor as seen by the resolver, reduced
to its list of candidate EPSG matches, each paired with a match confidence
(0-100).  Candidates are ordered best-first, as pyproj's matcher does; the
matcher itself is external to the repository. -/
structure CRSData where
  candidates : List (Nat × Nat)
deriving DecidableEq

/-- Modelled from the spec: `to_epsg` with an explicit `min_confidence`
parameter, as documented in the map-projections notebook: it returns the
EPSG code of the best candidate whose confidence meets the threshold and
`none` otherwise.  The pyproj implementation is not in the repository. -/
def to_epsg_with (c : CRSData) (minConf : Nat) : Option Nat :=
  (c.candidates.find? (fun cand => minConf ≤ cand.2)).map (fun cand => cand.1)

/-- Modelled from the spec: the documented default confidence threshold of
`to_epsg` ("By default, the confidence level is 70 %"). -/
def defaultMinConfidence : Nat := 70

/-- Modelled from the spec: `to_epsg` called without a threshold uses the
documented default confidence of 70. -/
def to_epsg (c : CRSData) : Option Nat :=
  to_epsg_with c defaultMinConfidence

/-- Modelled from the spec: the CRS of `Europe_borders.shp` as described in
the map-projections notebook: its WKT is under-specified, so its only
candidate match (EPSG 3035) carries a low confidence; `to_epsg()` yields
`None` on it while `to_epsg(min_confidence=25)` yields `3035`. -/
def europeBordersCRS : CRSData :=
  ⟨[(3035, 25)]⟩

/-- Modelled from the spec: the CRS Resolver of the reference design, which
turns the sentinel absence value of the underlying matcher into the typed
error `UnresolvedCRS` ("fails with a typed error rather than returning a
sentinel absence value"). -/
def resolveCRS (c : CRSData) (minConf : Nat) : Except GisError Nat :=
  match to_epsg_with c minConf with
  | some e => Except.ok e
  | none => Except.error GisError.UnresolvedCRS

/-- C2: when no candidate meets the (caller-supplied) confidence threshold,
the CRS Resolver fails with the typed error `UnresolvedCRS` rather than
returning a sentinel absence value. -/
theorem resolveCRS_unresolved (c : CRSData) (minConf : Nat)
    (h : ∀ cand ∈ c.candidates, cand.2 < minConf) :
    resolveCRS c minConf = Except.error GisError.UnresolvedCRS := by
  have hf : c.candidates.find? (fun cand => minConf ≤ cand.2) = none := by
    apply List.find?_eq_none.mpr
    intro x hx
    simpa using Nat.not_le.mpr (h x hx)
  simp [resolveCRS, to_epsg_with, hf]

/-- Witness for C2: on the under-specified European-borders CRS every
candidate confidence is below the default threshold 70, and resolution
fails with `UnresolvedCRS`. -/
theorem resolveCRS_unresolved_witness :
    (∀ cand ∈ europeBordersCRS.candidates, cand.2 < 70) ∧
      resolveCRS europeBordersCRS 70 = Except.error GisError.UnresolvedCRS :=
  ⟨by decide, resolveCRS_unresolved europeBordersCRS 70 (by decide)⟩

/-- C9: the default minimum confidence of `to_epsg` is 70 percent; on the
under-specified European-borders CRS, resolution at the default threshold
yields no EPSG code, while the same input at threshold 25 resolves to
EPSG 3035. -/
theorem to_epsg_default_confidence :
    defaultMinConfidence = 70 ∧
      to_epsg europeBordersCRS = none ∧
      to_epsg_with europeBordersCRS 25 = some 3035 := by
  decide

/-- A coordinate: an exact rational point of the plane. -/
abbrev Pt : Type := ℚ × ℚ

/-- Modelled from the spec: a vertex-based geometry, a list of ordered
coordinate sequences (rings or line strings); the concrete geometry classes
live in the external shapely library. -/
abbrev RingGeom : Type := List (List Pt)

/-- Modelled from the spec: a Feature is a geometry plus a mapping of
attribute name to scalar value. -/
structure Feature (γ : Type) where
  geom : γ
  attrs : List (String × Int)
deriving DecidableEq

/-- Modelled from the spec: a FeatureCollection is an ordered sequence of
features sharing one collection-level CRS. -/
structure FC (γ : Type) where
  crs : String
  features : List (Feature γ)
deriving DecidableEq

/-- Modelled from the spec: the table of coordinate transforms owned by the
external PROJ library, as a registry from (source, target) CRS pairs to the
forward point transform of the pair. -/
abbrev Registry : Type := List ((String × String) × (Pt → Pt))

/-- Look up the forward transform for a source/target CRS pair. -/
def lookupTransform (reg : Registry) (src tgt : String) : Option (Pt → Pt) :=
  (reg.find? (fun e => e.1.1 = src ∧ e.1.2 = tgt)).map (fun e => e.2)

/-- Apply a point transform to every vertex of a feature, leaving the
attribute table untouched. -/
def transformFeature (f : Pt → Pt) (ft : Feature RingGeom) : Feature RingGeom :=
  ⟨ft.geom.map (List.map f), ft.attrs⟩

/-- Modelled from the spec: `reproject(collection, targetCRS)` (the
`to_crs` cell of the map-projections notebook is empty and geopandas is
external): it applies the forward transform of the source-target pair to
every vertex of every geometry, keeps attributes, stamps the target CRS on
the output, and fails with `UnsupportedTransform` when no transform path
exists. -/
def reproject (reg : Registry) (c : FC RingGeom) (tgt : String) :
    Except GisError (FC RingGeom) :=
  match lookupTransform reg c.crs tgt with
  | none => Except.error GisError.UnsupportedTransform
  | some f => Except.ok ⟨tgt, c.features.map (transformFeature f)⟩

/-- C3: with a defined transform, `reproject` applies the forward transform
to every vertex of every geometry, preserves attributes and topology (ring
order and per-ring vertex count unchanged), and the output CRS equals the
target CRS. -/
theorem reproject_transform_spec (reg : Registry) (c : FC RingGeom)
    (tgt : String) (f : Pt → Pt)
    (h : lookupTransform reg c.crs tgt = some f) :
    reproject reg c tgt = Except.ok ⟨tgt, c.features.map (transformFeature f)⟩ ∧
      (∀ ft, (transformFeature f ft).attrs = ft.attrs) ∧
      (∀ ft, (transformFeature f ft).geom = ft.geom.map (List.map f)) ∧
      (∀ ft, (transformFeature f ft).geom.map List.length =
        ft.geom.map List.length) := by
  refine ⟨by simp [reproject, h], fun ft => rfl, fun ft => rfl, fun ft => ?_⟩
  simp [transformFeature, List.map_map, Function.comp_def]

/-- Swap of the two coordinate axes, an involutive point transform used as a
concrete transform pair in witnesses. -/
def axisSwap : Pt → Pt := fun p => (p.2, p.1)

/-- A concrete registry holding the WGS84 / ETRS-LAEA transform pair used by
the notebooks. -/
def sampleRegistry : Registry :=
  [(("EPSG:4326", "EPSG:3035"), axisSwap),
   (("EPSG:3035", "EPSG:4326"), axisSwap)]

/-- A concrete one-feature collection in WGS84. -/
def sampleFC : FC RingGeom :=
  ⟨"EPSG:4326", [⟨[[(1, 2), (3, 4), (5, 6)]], [("name", 7)]⟩]⟩

/-- Witness for C3: the transform from `EPSG:4326` to `EPSG:3035` is defined
in the sample registry and `reproject` behaves as specified on the sample
collection. -/
theorem reproject_transform_spec_witness :
    reproject sampleRegistry sampleFC "EPSG:3035" =
        Except.ok ⟨"EPSG:3035", sampleFC.features.map (transformFeature axisSwap)⟩ ∧
      (∀ ft, (transformFeature axisSwap ft).attrs = ft.attrs) ∧
      (∀ ft, (transformFeature axisSwap ft).geom = ft.geom.map (List.map axisSwap)) ∧
      (∀ ft, (transformFeature axisSwap ft).geom.map List.length =
        ft.geom.map List.length) :=
  reproject_transform_spec sampleRegistry sampleFC "EPSG:3035" axisSwap rfl

/-- C7: for a CRS pair with transforms defined in both directions that are
mutually inverse, reprojecting there and back returns the original
collection exactly (hence within any numeric tolerance on every
coordinate). -/
theorem reproject_roundtrip (reg : Registry) (c : FC RingGeom)
    (A B : String) (f g : Pt → Pt)
    (hA : c.crs = A)
    (hf : lookupTransform reg A B = some f)
    (hg : lookupTransform reg B A = some g)
    (hinv : ∀ p, g (f p) = p) :
    ∃ cB, reproject reg c B = Except.ok cB ∧
      reproject reg cB A = Except.ok c := by
  have hfeat : (c.features.map (transformFeature f)).map (transformFeature g) =
      c.features := by
    rw [List.map_map]
    have hid : ∀ ft ∈ c.features, (transformFeature g ∘ transformFeature f) ft = ft := by
      intro ft _
      cases ft with
      | mk geo at2 =>
        simp [transformFeature, Function.comp_def, List.map_map, hinv]
    calc c.features.map (transformFeature g ∘ transformFeature f)
    _ = c.features.map id := List.map_congr_left hid
    _ = c.features := List.map_id c.features
  refine ⟨⟨B, c.features.map (transformFeature f)⟩, ?_, ?_⟩
  · simp [reproject, hA, hf]
  · cases c with
    | mk crs feats =>
      subst hA
      simpa [reproject, hg] using hfeat

/-- Witness for C7: the sample registry holds mutually inverse transforms
between `EPSG:4326` and `EPSG:3035`, and the round trip on the sample
collection is the identity. -/
theorem reproject_roundtrip_witness :
    ∃ cB, reproject sampleRegistry sampleFC "EPSG:3035" = Except.ok cB ∧
      reproject sampleRegistry cB "EPSG:4326" = Except.ok sampleFC :=
  reproject_roundtrip sampleRegistry sampleFC "EPSG:4326" "EPSG:3035"
    axisSwap axisSwap rfl rfl rfl (fun _ => rfl)

/-- Squared deviation of point `p` from the line through `a` and `b`
(squared distance to `a` when the two coincide), computed exactly in ℚ. -/
def dist2 (a b p : Pt) : ℚ :=
  if (b.1 - a.1) * (b.1 - a.1) + (b.2 - a.2) * (b.2 - a.2) = 0 then
    (p.1 - a.1) * (p.1 - a.1) + (p.2 - a.2) * (p.2 - a.2)
  else
    ((b.1 - a.1) * (p.2 - a.2) - (b.2 - a.2) * (p.1 - a.1)) *
        ((b.1 - a.1) * (p.2 - a.2) - (b.2 - a.2) * (p.1 - a.1)) /
      ((b.1 - a.1) * (b.1 - a.1) + (b.2 - a.2) * (b.2 - a.2))

/-- Index and value of the first maximal entry of a list of deviations. -/
def argmax : List ℚ → Nat × ℚ
  | [] => (0, 0)
  | [d] => (0, d)
  | d :: rest =>
    if d < (argmax rest).2 then ((argmax rest).1 + 1, (argmax rest).2)
    else (0, d)

/-- Index (into the interior point list) and value of the largest deviation
from the segment `a`-`b`. -/
def peak (a b : Pt) (mid : List Pt) : Nat × ℚ :=
  argmax (mid.map (dist2 a b))

/-- Modelled from the spec: the Douglas-Peucker recursion underlying
shapely's `simplify` (external to the repository): keep the endpoints; if
every interior point deviates at most `tol`, drop them all, otherwise split
at the point of maximal deviation and recurse on both halves.  The fuel
argument (always called with the interior length) makes the recursion
structural. -/
def dp (tol : ℚ) : Nat → Pt → Pt → List Pt → List Pt
  | 0, a, b, _ => [a, b]
  | fuel + 1, a, b, mid =>
    if (peak a b mid).2 ≤ tol then [a, b]
    else
      match mid.get? (peak a b mid).1 with
      | none => [a, b]
      | some m =>
        dp tol fuel a m (mid.take (peak a b mid).1) ++
          (dp tol fuel m b (mid.drop ((peak a b mid).1 + 1))).tail

/-- The Douglas-Peucker recursion always keeps at least the two endpoints. -/
theorem two_le_dp_length (tol : ℚ) (fuel : Nat) :
    ∀ (a b : Pt) (mid : List Pt), 2 ≤ (dp tol fuel a b mid).length := by
  induction fuel with
  | zero => intro a b mid; simp [dp]
  | succ n ih =>
    intro a b mid
    simp only [dp]
    by_cases h : (peak a b mid).2 ≤ tol
    · rw [if_pos h]; simp
    · rw [if_neg h]
      cases hg : mid.get? (peak a b mid).1 with
      | none => simp
      | some m =>
        have h1 := ih a m (mid.take (peak a b mid).1)
        simp only [List.length_append]
        omega

/-- Core monotonicity of the Douglas-Peucker recursion: raising the
tolerance can only remove vertices.  The split position is independent of
the tolerance, so the run at the larger tolerance prunes the recursion tree
of the run at the smaller one. -/
theorem dp_length_mono (t1 t2 : ℚ) (h : t1 ≤ t2) (fuel : Nat) :
    ∀ (a b : Pt) (mid : List Pt),
      (dp t2 fuel a b mid).length ≤ (dp t1 fuel a b mid).length := by
  induction fuel with
  | zero => intro a b mid; simp [dp]
  | succ n ih =>
    intro a b mid
    simp only [dp]
    by_cases h1 : (peak a b mid).2 ≤ t1
    · rw [if_pos h1, if_pos (le_trans h1 h)]
    · rw [if_neg h1]
      by_cases h2 : (peak a b mid).2 ≤ t2
      · rw [if_pos h2]
        cases hg : mid.get? (peak a b mid).1 with
        | none => simp
        | some m =>
          have hlen := two_le_dp_length t1 n a m (mid.take (peak a b mid).1)
          simp only [List.length_cons, List.length_nil, List.length_append]
          omega
      · rw [if_neg h2]
        cases hg : mid.get? (peak a b mid).1 with
        | none => simp
        | some m =>
          have hA := ih a m (mid.take (peak a b mid).1)
          have hB := ih m b (mid.drop ((peak a b mid).1 + 1))
          simp only [List.length_append, List.length_tail]
          omega

/-- Modelled from the spec: `simplify` on a single coordinate sequence,
via the Douglas-Peucker recursion on its interior points. -/
def simplifyLine (l : List Pt) (tol : ℚ) : List Pt :=
  match l with
  | [] => []
  | [p] => [p]
  | a :: rest =>
    match rest.getLast? with
    | none => [a]
    | some b => dp tol rest.length a b rest.dropLast

/-- Simplifying a single coordinate sequence at a larger tolerance never
yields more vertices. -/
theorem simplifyLine_length_mono (t1 t2 : ℚ) (h : t1 ≤ t2) (l : List Pt) :
    (simplifyLine l t2).length ≤ (simplifyLine l t1).length := by
  cases l with
  | nil => simp [simplifyLine]
  | cons a rest =>
    cases rest with
    | nil => simp [simplifyLine]
    | cons x rs =>
      simp only [simplifyLine]
      cases hg : (x :: rs).getLast? with
      | none => simp
      | some b =>
        exact dp_length_mono t1 t2 h (x :: rs).length a b (x :: rs).dropLast

/-- Modelled from the spec: `simplify(geometry, tolerance)` applied to a
vertex-based geometry, coordinate sequence by coordinate sequence. -/
def simplifyGeom (g : RingGeom) (tol : ℚ) : RingGeom :=
  g.map (fun r => simplifyLine r tol)

/-- Total vertex count of a vertex-based geometry. -/
def vertexCount (g : RingGeom) : Nat :=
  (g.map List.length).sum

/-- C6: a larger simplification tolerance never increases the vertex count:
for `t1 < t2` the simplification at `t1` has at least as many vertices as
the simplification at `t2`. -/
theorem simplify_vertex_mono (g : RingGeom) (t1 t2 : ℚ) (h : t1 < t2) :
    vertexCount (simplifyGeom g t2) ≤ vertexCount (simplifyGeom g t1) := by
  unfold vertexCount simplifyGeom
  rw [List.map_map, List.map_map]
  apply List.sum_le_sum
  intro r _
  exact simplifyLine_length_mono t1 t2 (le_of_lt h) r

/-- A concrete four-vertex line used in the simplifier witness. -/
def sampleLineGeom : RingGeom :=
  [[(0, 0), (1, 1), (2, 0), (3, 5)]]

/-- Witness for C6: on a concrete line, tolerance 0 is smaller than
tolerance 1 and the vertex count at tolerance 1 is not larger. -/
theorem simplify_vertex_mono_witness :
    (0 : ℚ) < 1 ∧
      vertexCount (simplifyGeom sampleLineGeom 1) ≤
        vertexCount (simplifyGeom sampleLineGeom 0) :=
  ⟨by norm_num, simplify_vertex_mono sampleLineGeom 0 1 (by norm_num)⟩

/-- Modelled from the spec: the caller-specified aggregation functions of
the dissolve operation (sum, first, count, ...). -/
inductive Agg where
  | sum
  | first
  | count
deriving DecidableEq

/-- Apply an aggregation function to the column values of one group. -/
def applyAgg : Agg → List Int → Int
  | Agg.sum, vals => vals.sum
  | Agg.first, vals => vals.headD 0
  | Agg.count, vals => (vals.length : Int)

/-- Value of an attribute column in an attribute table (0 when absent). -/
def attrOf (col : String) (attrs : List (String × Int)) : Int :=
  ((attrs.find? (fun kv => kv.1 = col)).map (fun kv => kv.2)).getD 0

/-- Key-column value of a feature. -/
def featKey (key : String) (ft : Feature RingGeom) : Int :=
  attrOf key ft.attrs

/-- Distinct values of a list in order of first occurrence, with an
accumulator of already-seen values. -/
def firstKeysAux : List Int → List Int → List Int
  | _, [] => []
  | seen, k :: rest =>
    if k ∈ seen then firstKeysAux seen rest
    else k :: firstKeysAux (k :: seen) rest

/-- Distinct values of a list in order of first occurrence. -/
def firstKeys (l : List Int) : List Int :=
  firstKeysAux [] l

theorem firstKeysAux_toFinset (l : List Int) :
    ∀ seen, (firstKeysAux seen l).toFinset = l.toFinset \ seen.toFinset := by
  induction l with
  | nil => intro seen; simp [firstKeysAux]
  | cons k rest ih =>
    intro seen
    by_cases hk : k ∈ seen
    · rw [firstKeysAux, if_pos hk, ih]
      ext x
      simp only [Finset.mem_sdiff, List.mem_toFinset, List.mem_cons]
      constructor
      · rintro ⟨h1, h2⟩
        exact ⟨Or.inr h1, h2⟩
      · rintro ⟨h1, h2⟩
        rcases h1 with he | h1
        · exact absurd (he ▸ hk) h2
        · exact ⟨h1, h2⟩
    · rw [firstKeysAux, if_neg hk]
      ext x
      simp only [List.toFinset_cons, Finset.mem_insert, List.mem_toFinset,
        Finset.mem_sdiff, ih, List.mem_cons]
      by_cases hx : x = k
      · subst hx
        simp [hk]
      · simp [hx]

theorem firstKeysAux_nodup (l : List Int) :
    ∀ seen, (firstKeysAux seen l).Nodup ∧
      ∀ x ∈ firstKeysAux seen l, x ∉ seen := by
  induction l with
  | nil => intro seen; simp [firstKeysAux]
  | cons k rest ih =>
    intro seen
    by_cases hk : k ∈ seen
    · rw [firstKeysAux, if_pos hk]
      exact ih seen
    · rw [firstKeysAux, if_neg hk]
      obtain ⟨hnd, hni⟩ := ih (k :: seen)
      refine ⟨List.nodup_cons.mpr ⟨?_, hnd⟩, ?_⟩
      · intro hmem
        exact hni k hmem (List.mem_cons_self k seen)
      · intro x hx
        rcases List.mem_cons.mp hx with he | hx2
        · exact he ▸ hk
        · intro hxs
          exact hni x hx2 (List.mem_cons_of_mem k hxs)

theorem firstKeys_nodup (l : List Int) : (firstKeys l).Nodup :=
  (firstKeysAux_nodup l []).1

theorem firstKeys_toFinset (l : List Int) : (firstKeys l).toFinset = l.toFinset := by
  simpa [firstKeys] using firstKeysAux_toFinset l []

theorem firstKeys_length (l : List Int) :
    (firstKeys l).length = l.toFinset.card := by
  rw [← firstKeys_toFinset]
  exact (List.toFinset_card_of_nodup (firstKeys_nodup l)).symm

theorem firstKeysAux_of_nodup (l : List Int) :
    ∀ seen, l.Nodup → (∀ x ∈ l, x ∉ seen) → firstKeysAux seen l = l := by
  induction l with
  | nil => intro seen _ _; rfl
  | cons k rest ih =>
    intro seen hnd hd
    have hk : k ∉ seen := hd k (List.mem_cons_self k rest)
    rw [firstKeysAux, if_neg hk]
    congr 1
    apply ih
    · exact (List.nodup_cons.mp hnd).2
    · intro x hx hmem
      rcases List.mem_cons.mp hmem with he | hs
      · exact (List.nodup_cons.mp hnd).1 (he ▸ hx)
      · exact hd x (List.mem_cons_of_mem k hx) hs

theorem firstKeys_of_nodup (l : List Int) (h : l.Nodup) : firstKeys l = l :=
  firstKeysAux_of_nodup l [] h (by simp)

/-- The first element satisfying a predicate is the head of the filtered
list. -/
theorem find?_eq_head?_filter {α : Type} (p : α → Bool) (l : List α) :
    l.find? p = (l.filter p).head? := by
  induction l with
  | nil => rfl
  | cons a rest ih =>
    cases hpa : p a
    · simp only [List.find?_cons, hpa, List.filter_cons, cond_false,
        Bool.false_eq_true, if_false, ih]
    · simp only [List.find?_cons, hpa, List.filter_cons, cond_true, if_true,
        List.head?_cons]

/-- In a list whose images under `f` are pairwise distinct, filtering for
the image class of a member `x` returns exactly `[x]`. -/
theorem filter_fiber_singleton {α β : Type} [DecidableEq β] (f : α → β) :
    ∀ (l : List α), (l.map f).Nodup → ∀ x ∈ l,
      l.filter (fun y => f y = f x) = [x] := by
  intro l
  induction l with
  | nil => intro _ x hx; exact absurd hx (List.not_mem_nil x)
  | cons a rest ih =>
    intro hnd x hx
    have hmap : (f a) ∉ rest.map f ∧ (rest.map f).Nodup := by
      rw [List.map_cons] at hnd
      exact List.nodup_cons.mp hnd
    rcases List.mem_cons.mp hx with he | hx2
    · subst he
      rw [List.filter_cons, if_pos (by simp)]
      have hrest : rest.filter (fun y => decide (f y = f x)) = [] := by
        apply List.filter_eq_nil_iff.mpr
        intro y hy
        simp only [decide_eq_true_eq]
        intro hyx
        exact hmap.1 (hyx ▸ List.mem_map_of_mem f hy)
      rw [hrest]
    · have hne : ¬ (f a = f x) := by
        intro he2
        exact hmap.1 (he2 ▸ List.mem_map_of_mem f hx2)
      rw [List.filter_cons, if_neg (by simpa using hne)]
      exact ih hmap.2 x hx2

/-- A row of a dissolved collection: the key value that identifies the row,
its merged geometry, and its aggregated attribute columns. -/
structure Row where
  keyVal : Int
  geom : RingGeom
  attrs : List (String × Int)
deriving DecidableEq

/-- A dissolved collection: rows identified by the values of the dissolve
key column, which is recorded as the row identifier of the collection. -/
structure DFC where
  crs : String
  key : String
  rows : List Row
deriving DecidableEq

/-- Modelled from the spec: `dissolve(collection, keyColumn, aggregations)`
(the dissolve cells of the notebooks are empty and geopandas is external):
group features by equal key-column value, insertion order of first
occurrence first, merge each group's geometries into one, aggregate each
caller-listed remaining column, and turn the key column into the row
identifier. -/
def dissolve (c : FC RingGeom) (key : String) (aggs : List (String × Agg)) : DFC :=
  { crs := c.crs
    key := key
    rows := (firstKeys (c.features.map (featKey key))).map (fun k =>
      { keyVal := k
        geom := ((c.features.filter (fun ft => featKey key ft = k)).map
          Feature.geom).flatten
        attrs := (aggs.filter (fun ca => ¬ ca.1 = key)).map (fun ca =>
          (ca.1, applyAgg ca.2
            ((c.features.filter (fun ft => featKey key ft = k)).map
              (fun ft => attrOf ca.1 ft.attrs)))) }) }

/-- The row identifiers of a dissolved collection are the distinct key
values of the input in order of first occurrence. -/
theorem dissolve_rows_keys (c : FC RingGeom) (key : String)
    (aggs : List (String × Agg)) :
    (dissolve c key aggs).rows.map Row.keyVal =
      firstKeys (c.features.map (featKey key)) := by
  simp [dissolve, List.map_map, Function.comp_def]

/-- C5: dissolve groups features by equal key value, orders the output by
first occurrence of each key, produces one row per distinct key value, and
turns the key column into the row identifier (it is no longer an attribute
column of any row). -/
theorem dissolve_spec (c : FC RingGeom) (key : String)
    (aggs : List (String × Agg)) :
    (dissolve c key aggs).key = key ∧
      (dissolve c key aggs).rows.map Row.keyVal =
        firstKeys (c.features.map (featKey key)) ∧
      (dissolve c key aggs).rows.length =
        (c.features.map (featKey key)).toFinset.card ∧
      (∀ r ∈ (dissolve c key aggs).rows,
        r.geom = ((c.features.filter
          (fun ft => featKey key ft = r.keyVal)).map Feature.geom).flatten) ∧
      (∀ r ∈ (dissolve c key aggs).rows, key ∉ r.attrs.map Prod.fst) := by
  refine ⟨rfl, dissolve_rows_keys c key aggs, ?_, ?_, ?_⟩
  · simp [dissolve, firstKeys_length]
  · intro r hr
    simp only [dissolve, List.mem_map] at hr
    obtain ⟨k, _, he⟩ := hr
    subst he
    rfl
  · intro r hr
    simp only [dissolve, List.mem_map] at hr
    obtain ⟨k, _, he⟩ := hr
    subst he
    intro hmem
    simp only [List.map_map, List.mem_map, Function.comp_def] at hmem
    obtain ⟨ca, hca, he2⟩ := hmem
    rw [List.mem_filter] at hca
    have := hca.2
    simp only [decide_eq_true_eq] at this
    exact this (by simpa using he2)

/-- Modelled from the spec: dissolving an already-dissolved collection again
on its key column: regroup the rows by their key value, merge each group's
geometries, and keep the first row's attribute columns of each group. -/
def dissolveAgain (d : DFC) : DFC :=
  { crs := d.crs
    key := d.key
    rows := (firstKeys (d.rows.map Row.keyVal)).map (fun k =>
      { keyVal := k
        geom := ((d.rows.filter (fun r => r.keyVal = k)).map Row.geom).flatten
        attrs := ((d.rows.filter (fun r => r.keyVal = k)).map
          Row.attrs).headD [] }) }

/-- Dissolving a collection whose row keys are pairwise distinct is a
no-op. -/
theorem dissolveAgain_of_nodup (d : DFC)
    (h : (d.rows.map Row.keyVal).Nodup) : dissolveAgain d = d := by
  unfold dissolveAgain
  rw [firstKeys_of_nodup (d.rows.map Row.keyVal) h]
  cases d with
  | mk crs key rows =>
    simp only [DFC.mk.injEq, true_and]
    rw [List.map_map]
    have hmapid : ∀ {f : Row → Row}, (∀ r ∈ rows, f r = r) → rows.map f = rows := by
      intro f hf
      exact (List.map_congr_left hf).trans (List.map_id rows)
    apply hmapid
    intro r hr
    have hfil : rows.filter (fun y => y.keyVal = r.keyVal) = [r] :=
      filter_fiber_singleton Row.keyVal rows h r hr
    have hfind : rows.find? (fun y => y.keyVal = r.keyVal) = some r := by
      rw [find?_eq_head?_filter, hfil]
      rfl
    simp [Function.comp_def, hfil, hfind]

/-- C8: applying dissolve a second time on the already-dissolved key column
is a no-op: the twice-dissolved collection equals the once-dissolved one,
so in particular it has the same feature count and the same geometries. -/
theorem dissolve_idempotent (c : FC RingGeom) (key : String)
    (aggs : List (String × Agg)) :
    dissolveAgain (dissolve c key aggs) = dissolve c key aggs := by
  apply dissolveAgain_of_nodup
  rw [dissolve_rows_keys]
  exact firstKeys_nodup (c.features.map (featKey key))

/-- An axis-aligned rectangle with rational bounds, the shape of the grid
cells in the overlay notebook. -/
structure Rect where
  x1 : ℚ
  y1 : ℚ
  x2 : ℚ
  y2 : ℚ
deriving DecidableEq

/-- A region geometry: a finite union of axis-aligned rectangles. -/
abbrev RectGeom : Type := List Rect

/-- Intersection of two rectangles, `none` when it is empty (degenerate
intersections produce no output). -/
def interRect (r s : Rect) : Option Rect :=
  if max r.x1 s.x1 ≤ min r.x2 s.x2 ∧ max r.y1 s.y1 ≤ min r.y2 s.y2 then
    some ⟨max r.x1 s.x1, max r.y1 s.y1, min r.x2 s.x2, min r.y2 s.y2⟩
  else none

/-- Intersection of two region geometries: all nonempty pairwise rectangle
intersections. -/
def interG (g h : RectGeom) : RectGeom :=
  g.flatMap (fun r => h.filterMap (interRect r))

/-- A point lies inside a rectangle. -/
def pInRect (p : Pt) (r : Rect) : Prop :=
  r.x1 ≤ p.1 ∧ p.1 ≤ r.x2 ∧ r.y1 ≤ p.2 ∧ p.2 ≤ r.y2

/-- A point lies inside a region geometry. -/
def pInG (p : Pt) (g : RectGeom) : Prop :=
  ∃ r ∈ g, pInRect p r

/-- Every point of a rectangle intersection lies in both operands. -/
theorem interRect_subset {r s t : Rect} (h : interRect r s = some t)
    {p : Pt} (hp : pInRect p t) : pInRect p r ∧ pInRect p s := by
  unfold interRect at h
  by_cases hc : max r.x1 s.x1 ≤ min r.x2 s.x2 ∧ max r.y1 s.y1 ≤ min r.y2 s.y2
  · rw [if_pos hc] at h
    obtain rfl : t = ⟨max r.x1 s.x1, max r.y1 s.y1, min r.x2 s.x2, min r.y2 s.y2⟩ :=
      (Option.some_inj.mp h).symm
    obtain ⟨h1, h2, h3, h4⟩ := hp
    exact ⟨⟨le_trans (le_max_left _ _) h1, le_trans h2 (min_le_left _ _),
        le_trans (le_max_left _ _) h3, le_trans h4 (min_le_left _ _)⟩,
      ⟨le_trans (le_max_right _ _) h1, le_trans h2 (min_le_right _ _),
        le_trans (le_max_right _ _) h3, le_trans h4 (min_le_right _ _)⟩⟩
  · rw [if_neg hc] at h
    exact absurd h (by simp)

/-- Every point of a region intersection lies in both operand regions. -/
theorem interG_subset {g h : RectGeom} {p : Pt} (hp : pInG p (interG g h)) :
    pInG p g ∧ pInG p h := by
  obtain ⟨t, ht, hpt⟩ := hp
  rw [interG, List.mem_flatMap] at ht
  obtain ⟨r, hr, ht2⟩ := ht
  rw [List.mem_filterMap] at ht2
  obtain ⟨s, hs, hint⟩ := ht2
  obtain ⟨h1, h2⟩ := interRect_subset hint hpt
  exact ⟨⟨r, hr, h1⟩, ⟨s, hs, h2⟩⟩

/-- Modelled from the spec: the attribute-merge policy of overlay: columns
of both inputs are kept, with a disambiguating suffix on name collision. -/
def mergeAttrs (xa ya : List (String × Int)) : List (String × Int) :=
  xa ++ ya.map (fun kv =>
    if (xa.map Prod.fst).contains kv.1 then (kv.1 ++ "_2", kv.2) else kv)

/-- Modelled from the spec: the five overlay modes. -/
inductive Mode where
  | intersection
  | union
  | difference
  | symmetricDifference
  | identity
deriving DecidableEq

/-- One output feature per overlapping geometry pair, its geometry clipped
to the pair intersection; empty intersections produce no output feature. -/
def interFeatures (fa fb : List (Feature RectGeom)) : List (Feature RectGeom) :=
  fa.flatMap (fun a => fb.filterMap (fun b =>
    if interG a.geom b.geom = [] then none
    else some ⟨interG a.geom b.geom, mergeAttrs a.attrs b.attrs⟩))

/-- A feature overlaps no feature of the other layer. -/
def noOverlap (a : Feature RectGeom) (l : List (Feature RectGeom)) : Bool :=
  l.all (fun b => interG a.geom b.geom = [])

/-- Modelled from the spec: the geometry-and-attribute combination step of
each overlay mode (the overlay cells of the notebook are empty and
geopandas is external). -/
def overlayFeatures (m : Mode) (fa fb : List (Feature RectGeom)) :
    List (Feature RectGeom) :=
  match m with
  | Mode.intersection => interFeatures fa fb
  | Mode.union =>
    interFeatures fa fb ++ fa.filter (fun a => noOverlap a fb) ++
      fb.filter (fun b => noOverlap b fa)
  | Mode.difference => fa.filter (fun a => noOverlap a fb)
  | Mode.symmetricDifference =>
    fa.filter (fun a => noOverlap a fb) ++ fb.filter (fun b => noOverlap b fa)
  | Mode.identity => interFeatures fa fb ++ fa.filter (fun a => noOverlap a fb)

/-- Modelled from the spec: `overlay(a, b, mode)` checks the collection CRS
precondition before any geometric work and fails with `CRSMismatch` when it
is violated; it never reprojects an input. -/
def overlay (a b : FC RectGeom) (m : Mode) : Except GisError (FC RectGeom) :=
  if a.crs = b.crs then
    Except.ok ⟨a.crs, overlayFeatures m a.features b.features⟩
  else Except.error GisError.CRSMismatch

/-- C1: for every pair of collections with different CRS and every overlay
mode, `overlay` fails with the typed error `CRSMismatch`; no output
collection is produced, so neither input is silently reprojected. -/
theorem overlay_crs_mismatch (a b : FC RectGeom) (m : Mode)
    (h : ¬ a.crs = b.crs) :
    overlay a b m = Except.error GisError.CRSMismatch := by
  unfold overlay
  rw [if_neg h]

/-- Two concrete one-feature layers sharing a CRS, overlapping partially. -/
def layerA : FC RectGeom :=
  ⟨"EPSG:4326", [⟨[⟨0, 0, 2, 2⟩], [("ida", 1)]⟩]⟩

/-- The second concrete layer of the overlay examples. -/
def layerB : FC RectGeom :=
  ⟨"EPSG:4326", [⟨[⟨1, 1, 3, 3⟩], [("idb", 2)]⟩]⟩

/-- A copy of the first layer carried in a different CRS. -/
def layerC : FC RectGeom :=
  ⟨"EPSG:3035", [⟨[⟨0, 0, 2, 2⟩], [("ida", 1)]⟩]⟩

/-- Witness for C1: the two layers disagreeing on CRS make every overlay
mode fail with `CRSMismatch`. -/
theorem overlay_crs_mismatch_witness :
    ¬ layerA.crs = layerC.crs ∧
      overlay layerA layerC Mode.intersection =
        Except.error GisError.CRSMismatch :=
  ⟨by decide, overlay_crs_mismatch layerA layerC Mode.intersection (by decide)⟩

/-- C10: every feature of an intersection overlay is clipped: its geometry
is the intersection of one contributing geometry from each input, is
nonempty, and is contained point-wise in both contributing geometries. -/
theorem overlay_intersection_contained (a b o : FC RectGeom)
    (ft : Feature RectGeom)
    (ho : overlay a b Mode.intersection = Except.ok o)
    (hf : ft ∈ o.features) :
    ∃ fa ∈ a.features, ∃ fb ∈ b.features,
      ft.geom = interG fa.geom fb.geom ∧ ft.geom ≠ [] ∧
      ∀ p : Pt, pInG p ft.geom → pInG p fa.geom ∧ pInG p fb.geom := by
  unfold overlay at ho
  by_cases hcrs : a.crs = b.crs
  · rw [if_pos hcrs] at ho
    injection ho with h2
    subst h2
    simp only [overlayFeatures, interFeatures] at hf
    rw [List.mem_flatMap] at hf
    obtain ⟨fa, hfa, hf2⟩ := hf
    rw [List.mem_filterMap] at hf2
    obtain ⟨fb, hfb, hsome⟩ := hf2
    by_cases hne : interG fa.geom fb.geom = []
    · rw [if_pos hne] at hsome
      exact absurd hsome (by simp)
    · rw [if_neg hne] at hsome
      obtain rfl : ft = ⟨interG fa.geom fb.geom, mergeAttrs fa.attrs fb.attrs⟩ :=
        (Option.some_inj.mp hsome).symm
      exact ⟨fa, hfa, fb, hfb, rfl, hne, fun p hp => interG_subset hp⟩
  · rw [if_neg hcrs] at ho
    exact absurd ho (by simp)

/-- The overlay of the two concrete layers: one feature, clipped to the
unit overlap square. -/
def overlayAB : FC RectGeom :=
  ⟨"EPSG:4326", [⟨[⟨1, 1, 2, 2⟩], [("ida", 1), ("idb", 2)]⟩]⟩

/-- The single feature of the concrete overlay output. -/
def overlayABFeature : Feature RectGeom :=
  ⟨[⟨1, 1, 2, 2⟩], [("ida", 1), ("idb", 2)]⟩

/-- Witness for C10: on the concrete layers, the intersection overlay
succeeds, its single feature is clipped to both contributing
geometries. -/
theorem overlay_intersection_contained_witness :
    ∃ fa ∈ layerA.features, ∃ fb ∈ layerB.features,
      overlayABFeature.geom = interG fa.geom fb.geom ∧
      overlayABFeature.geom ≠ [] ∧
      ∀ p : Pt, pInG p overlayABFeature.geom →
        pInG p fa.geom ∧ pInG p fb.geom :=
  overlay_intersection_contained layerA layerB overlayAB overlayABFeature
    (by rfl) (by decide)

/-- `simplify` lifted to a whole collection, geometry by geometry. -/
def simplifyCollection (c : FC RingGeom) (tol : ℚ) : FC RingGeom :=
  ⟨c.crs, c.features.map (fun ft => ⟨simplifyGeom ft.geom tol, ft.attrs⟩)⟩

/-- A named layer of the pipeline state: a vertex-based collection, a
region-based collection, or a dissolved collection. -/
inductive Layer where
  | vec (fc : FC RingGeom)
  | cells (fc : FC RectGeom)
  | dis (d : DFC)

/-- Modelled from the spec: the batch pipeline state, a mapping from layer
names to the independent collections the stages exchange. -/
abbrev Store : Type := List (String × Layer)

/-- Look up a named layer in the pipeline state. -/
def lookupLayer (s : Store) (k : String) : Option Layer :=
  (s.find? (fun e => e.1 = k)).map (fun e => e.2)

/-- Modelled from the spec: one pipeline operation call — which operation to
run, the names of its input layers, its parameters, and the name under
which its result is stored. -/
inductive OpCall where
  | reproj (inp tgt out : String)
  | over (ina inb : String) (m : Mode) (out : String)
  | diss (inp key : String) (aggs : List (String × Agg)) (out : String)
  | simpl (inp : String) (tol : ℚ) (out : String)

/-- The name under which an operation call stores its result. -/
def outName : OpCall → String
  | OpCall.reproj _ _ o => o
  | OpCall.over _ _ _ o => o
  | OpCall.diss _ _ _ o => o
  | OpCall.simpl _ _ o => o

/-- Evaluate one operation call against the pipeline state, reading its
inputs and producing either a typed error or the result layer. -/
def evalCall (reg : Registry) (s : Store) : OpCall → Except GisError Layer
  | OpCall.reproj inp tgt _ =>
    match lookupLayer s inp with
    | some (Layer.vec fc) => (reproject reg fc tgt).map Layer.vec
    | _ => Except.error GisError.InvalidGeometry
  | OpCall.over ina inb m _ =>
    match lookupLayer s ina, lookupLayer s inb with
    | some (Layer.cells fa), some (Layer.cells fb) =>
      (overlay fa fb m).map Layer.cells
    | _, _ => Except.error GisError.InvalidGeometry
  | OpCall.diss inp key aggs _ =>
    match lookupLayer s inp with
    | some (Layer.vec fc) => Except.ok (Layer.dis (dissolve fc key aggs))
    | _ => Except.error GisError.InvalidGeometry
  | OpCall.simpl inp tol _ =>
    match lookupLayer s inp with
    | some (Layer.vec fc) => Except.ok (Layer.vec (simplifyCollection fc tol))
    | _ => Except.error GisError.InvalidGeometry

/-- Modelled from the spec: running one pipeline operation: on success the
result is bound under the output name of the call and every other binding
is carried over unchanged; on failure the state is returned untouched
together with the typed error — there are no partial results. -/
def runOp (reg : Registry) (s : Store) (call : OpCall) :
    Store × Option GisError :=
  match evalCall reg s call with
  | Except.error e => (s, some e)
  | Except.ok lay => ((outName call, lay) :: s, none)

/-- C4: every pipeline operation (reproject, overlay, dissolve, simplify)
leaves its input layers unchanged: every binding other than the output name
of the call is the same after the call, and when the call fails the whole
state is returned unchanged — no partial results. -/
theorem runOp_frame (reg : Registry) (s : Store) (call : OpCall)
    (k : String) (hk : ¬ k = outName call) :
    lookupLayer (runOp reg s call).1 k = lookupLayer s k ∧
      ((runOp reg s call).2.isSome → (runOp reg s call).1 = s) := by
  unfold runOp
  cases he : evalCall reg s call with
  | error e => exact ⟨rfl, fun _ => rfl⟩
  | ok lay =>
    refine ⟨?_, by simp⟩
    have h2 : ((outName call, lay).1 = k) = False := by
      simp only [eq_iff_iff, iff_false]
      exact fun hcon => hk hcon.symm
    simp [lookupLayer, List.find?_cons, h2]

/-- A concrete pipeline state with one vertex-based layer. -/
def sampleStore : Store :=
  [("borders", Layer.vec sampleFC)]

/-- A concrete simplify call writing to a fresh name. -/
def sampleCall : OpCall :=
  OpCall.simpl "borders" 1 "generalized"

/-- Witness for C4: running the concrete simplify call leaves the input
binding `borders` unchanged, and would leave the whole state unchanged had
it failed. -/
theorem runOp_frame_witness :
    lookupLayer (runOp sampleRegistry sampleStore sampleCall).1 "borders" =
        lookupLayer sampleStore "borders" ∧
      ((runOp sampleRegistry sampleStore sampleCall).2.isSome →
        (runOp sampleRegistry sampleStore sampleCall).1 = sampleStore) :=
  runOp_frame sampleRegistry sampleStore sampleCall "borders" (by decide)
